import Mathlib

/-!
Formal model of the autostereogram generation pipeline of `autos.py`
(random-dot tile synthesis, tiling, and the depth-driven in-place
row resampler), together with proofs and refutations of its
specified properties.

Modelling conventions:
* An image is a pair of dimensions plus a total pixel function; pixel
  reads and writes outside the `[0,width) x [0,height)` domain never
  occur in the modelled loops, mirroring the source.
* The source divides integer pixel values with `/`; the program is
  written for the Python 2 semantics where this is floor division on
  integers, so depth shifts are the integers `floor(D[i,j] / 10)`.
* Python `random.randint(a, b)` returns a value in the inclusive
  range `[a, b]`; the random source is modelled as a stream of
  naturals with a cursor, and `randint` reduces a stream value into
  the inclusive range.
-/

namespace Autos

/-- RGB pixel value (r, g, b). -/
abbrev Col : Type := Nat × Nat × Nat

/-- A decoded raster image: dimensions plus a pixel grid. -/
structure Img (α : Type) where
  width : Nat
  height : Nat
  pix : Nat → Nat → α

/-- Write a single pixel of an image (PIL `pix[x, y] = v`). -/
def setPix {α : Type} (im : Img α) (x y : Nat) (v : α) : Img α :=
  { im with pix := fun a b => if a = x ∧ b = y then v else im.pix a b }

theorem setPix_width {α : Type} (im : Img α) (x y : Nat) (v : α) :
    (setPix im x y v).width = im.width := rfl

theorem setPix_height {α : Type} (im : Img α) (x y : Nat) (v : α) :
    (setPix im x y v).height = im.height := rfl

theorem setPix_pix {α : Type} (im : Img α) (x y a b : Nat) (v : α) :
    (setPix im x y v).pix a b = if a = x ∧ b = y then v else im.pix a b := rfl

/-- The integer column displacement `pixD[i, j] / 10` computed by
`createDepthShiftedImage` (floor division of the depth sample by the
depth scale 10 hard-coded in the source). -/
def xshiftOf (dmap : Img Nat) (i j : Nat) : Nat := dmap.pix i j / 10

/-- One iteration of the inner loop of `createDepthShiftedImage`:
at column `i` of row `j`, compute `xpos = i - period + xshift` and,
when `0 < xpos < cols`, overwrite `S[i, j]` with the current
`S[xpos, j]` of the same mutable buffer. -/
def shiftStep (dmap : Img Nat) (period cols j : Nat) {α : Type} (s : Img α)
    (i : Nat) : Img α :=
  if 0 < (i : Int) - period + xshiftOf dmap i j ∧
      (i : Int) - period + xshiftOf dmap i j < cols then
    setPix s i j (s.pix ((i : Int) - period + xshiftOf dmap i j).toNat j)
  else s

/-- The first `k` iterations of the inner loop of
`createDepthShiftedImage` on row `j` (`for i in range(k)`). -/
def shiftRowAux (dmap : Img Nat) (period cols j : Nat) {α : Type} (s : Img α)
    (k : Nat) : Img α :=
  (List.range k).foldl (shiftStep dmap period cols j) s

/-- The first `m` iterations of the outer loop of
`createDepthShiftedImage` (`for j in range(m)`), each running the full
inner pass over `cols` columns. -/
def shiftRows (dmap : Img Nat) (period cols : Nat) {α : Type} (s : Img α)
    (m : Nat) : Img α :=
  (List.range m).foldl (fun t j => shiftRowAux dmap period cols j t cols) s

/-- Model of `createDepthShiftedImage(dmap, img, period)`: copy the
input image and run the double loop over `rows` and `cols` (taken from
the copied buffer once, before the loop), shifting pixels in place.
The source's `assert dmap.size == img.size` is a precondition and
appears as a hypothesis of the theorems that use unequal images. -/
def createDepthShiftedImage (dmap : Img Nat) {α : Type} (img : Img α)
    (period : Nat) : Img α :=
  shiftRows dmap period img.width img img.height

/-- Variant of `shiftStep` that reads the source pixel from an
immutable pre-pass copy `src` instead of the current buffer. This is
the read-only source/destination split that the design notes forbid;
it exists only to be compared against the in-place pass. -/
def shiftStepCopy (dmap : Img Nat) {α : Type} (src : Img α)
    (period cols j : Nat) (s : Img α) (i : Nat) : Img α :=
  if 0 < (i : Int) - period + xshiftOf dmap i j ∧
      (i : Int) - period + xshiftOf dmap i j < cols then
    setPix s i j (src.pix ((i : Int) - period + xshiftOf dmap i j).toNat j)
  else s

/-- The copying variant of `createDepthShiftedImage`: identical loops,
but every source pixel is read from the immutable pre-pass image. -/
def createDepthShiftedImageCopy (dmap : Img Nat) {α : Type} (img : Img α)
    (period : Nat) : Img α :=
  (List.range img.height).foldl
    (fun t j => (List.range img.width).foldl
      (shiftStepCopy dmap img period img.width j) t) img

section RowLemmas

variable {α : Type} (d : Img Nat) (p cols j : Nat) (s : Img α)

theorem shiftStep_width (i : Nat) :
    (shiftStep d p cols j s i).width = s.width := by
  unfold shiftStep
  split <;> rfl

theorem shiftStep_height (i : Nat) :
    (shiftStep d p cols j s i).height = s.height := by
  unfold shiftStep
  split <;> rfl

theorem shiftRowAux_zero : shiftRowAux d p cols j s 0 = s := rfl

theorem shiftRowAux_succ (k : Nat) :
    shiftRowAux d p cols j s (k + 1) =
      shiftStep d p cols j (shiftRowAux d p cols j s k) k := by
  unfold shiftRowAux
  rw [List.range_succ, List.foldl_append, List.foldl_cons, List.foldl_nil]

theorem shiftRowAux_width (k : Nat) :
    (shiftRowAux d p cols j s k).width = s.width := by
  induction k with
  | zero => rfl
  | succ k ih => rw [shiftRowAux_succ, shiftStep_width, ih]

theorem shiftRowAux_height (k : Nat) :
    (shiftRowAux d p cols j s k).height = s.height := by
  induction k with
  | zero => rfl
  | succ k ih => rw [shiftRowAux_succ, shiftStep_height, ih]

/-- Cells of other rows, and cells at columns not yet reached by the
pass, hold their original value. -/
theorem shiftRowAux_pix_frozen (k x y : Nat) (h : y ≠ j ∨ k ≤ x) :
    (shiftRowAux d p cols j s k).pix x y = s.pix x y := by
  induction k with
  | zero => rfl
  | succ k ih =>
    rw [shiftRowAux_succ]
    unfold shiftStep
    have hne : ¬(x = k ∧ y = j) := by
      rcases h with h | h
      · exact fun hc => h hc.2
      · exact fun hc => by omega
    split
    · rw [setPix_pix, if_neg hne]
      exact ih (by omega)
    · exact ih (by omega)

/-- Once the pass has moved past column `x`, the value at `(x, j)` is
final: it no longer changes as later columns are processed. -/
theorem shiftRowAux_pix_stable (k x : Nat) (h : x < k) :
    (shiftRowAux d p cols j s k).pix x j =
      (shiftRowAux d p cols j s (x + 1)).pix x j := by
  induction k with
  | zero => omega
  | succ k ih =>
    rcases Nat.lt_or_ge x k with hlt | hge
    · rw [shiftRowAux_succ]
      unfold shiftStep
      have hne : ¬(x = k ∧ j = j) := fun hc => by omega
      split
      · rw [setPix_pix, if_neg hne]
        exact ih hlt
      · exact ih hlt
    · have : x = k := by omega
      subst this
      rfl

/-- The value of cell `(x, j)` right after its own iteration: either
the write condition holds and it receives the current buffer value at
`xpos`, or it keeps its original value. -/
theorem shiftRowAux_pix_val (x : Nat) :
    (shiftRowAux d p cols j s (x + 1)).pix x j =
      if 0 < (x : Int) - p + xshiftOf d x j ∧
          (x : Int) - p + xshiftOf d x j < cols then
        (shiftRowAux d p cols j s x).pix
          ((x : Int) - p + xshiftOf d x j).toNat j
      else s.pix x j := by
  rw [shiftRowAux_succ]
  unfold shiftStep
  split
  · rw [setPix_pix, if_pos ⟨rfl, rfl⟩]
  · exact shiftRowAux_pix_frozen d p cols j s x x j (Or.inr (Nat.le_refl x))

/-- The inner pass reads and writes only row `j`: its effect on row `j`
is determined by the initial content of row `j`. -/
theorem shiftRowAux_congr (t : Img α) (k : Nat)
    (h : ∀ x, s.pix x j = t.pix x j) :
    ∀ x, (shiftRowAux d p cols j s k).pix x j =
      (shiftRowAux d p cols j t k).pix x j := by
  induction k with
  | zero => exact h
  | succ k ih =>
    intro x
    rw [shiftRowAux_succ, shiftRowAux_succ]
    unfold shiftStep
    split
    · rw [setPix_pix, setPix_pix]
      by_cases hx : x = k ∧ j = j
      · rw [if_pos hx, if_pos hx]
        exact ih _
      · rw [if_neg hx, if_neg hx]
        exact ih x
    · exact ih x

theorem shiftRows_width (m : Nat) : (shiftRows d p cols s m).width = s.width := by
  unfold shiftRows
  induction m with
  | zero => rfl
  | succ m ih => rw [List.range_succ, List.foldl_append, List.foldl_cons,
      List.foldl_nil, shiftRowAux_width, ih]

theorem shiftRows_height (m : Nat) : (shiftRows d p cols s m).height = s.height := by
  unfold shiftRows
  induction m with
  | zero => rfl
  | succ m ih => rw [List.range_succ, List.foldl_append, List.foldl_cons,
      List.foldl_nil, shiftRowAux_height, ih]

theorem shiftRows_succ (m : Nat) :
    shiftRows d p cols s (m + 1) =
      shiftRowAux d p cols m (shiftRows d p cols s m) cols := by
  unfold shiftRows
  rw [List.range_succ, List.foldl_append, List.foldl_cons, List.foldl_nil]

/-- Rows not yet processed by the outer loop are untouched. -/
theorem shiftRows_pix_ge (m x y : Nat) (h : m ≤ y) :
    (shiftRows d p cols s m).pix x y = s.pix x y := by
  induction m with
  | zero => rfl
  | succ m ih =>
    rw [shiftRows_succ]
    rw [shiftRowAux_pix_frozen d p cols m _ cols x y (Or.inl (by omega))]
    exact ih (by omega)

/-- Row `y` of the final image equals row `y` of the single inner pass
applied directly to the original image: rows are independent. -/
theorem shiftRows_pix_lt (m x y : Nat) (h : y < m) :
    (shiftRows d p cols s m).pix x y =
      (shiftRowAux d p cols y s cols).pix x y := by
  induction m with
  | zero => omega
  | succ m ih =>
    rw [shiftRows_succ]
    rcases Nat.lt_or_ge y m with hlt | hge
    · rw [shiftRowAux_pix_frozen d p cols m _ cols x y (Or.inl (by omega))]
      exact ih hlt
    · have hym : y = m := by omega
      subst hym
      exact shiftRowAux_congr d p cols y _ s cols
        (fun x => shiftRows_pix_ge d p cols s y x y (Nat.le_refl y)) x

end RowLemmas

theorem createDepthShiftedImage_width {α : Type} (d : Img Nat) (img : Img α)
    (p : Nat) : (createDepthShiftedImage d img p).width = img.width :=
  shiftRows_width d p img.width img img.height

theorem createDepthShiftedImage_height {α : Type} (d : Img Nat) (img : Img α)
    (p : Nat) : (createDepthShiftedImage d img p).height = img.height :=
  shiftRows_height d p img.width img img.height

theorem createDepthShiftedImage_pix_lt {α : Type} (d : Img Nat) (img : Img α)
    (p x y : Nat) (h : y < img.height) :
    (createDepthShiftedImage d img p).pix x y =
      (shiftRowAux d p img.width y img img.width).pix x y :=
  shiftRows_pix_lt d p img.width img img.height x y h

theorem createDepthShiftedImage_pix_ge {α : Type} (d : Img Nat) (img : Img α)
    (p x y : Nat) (h : img.height ≤ y) :
    (createDepthShiftedImage d img p).pix x y = img.pix x y :=
  shiftRows_pix_ge d p img.width img img.height x y h

/-- Model of PIL `img.paste(tile, (ox, oy))`: copy the full tile into
the canvas at origin `(ox, oy)`; any portion extending past the canvas
bounds is silently truncated. -/
def paste {α : Type} (canvas tile : Img α) (ox oy : Nat) : Img α :=
  { canvas with pix := fun x y =>
      if ox ≤ x ∧ x < ox + tile.width ∧ oy ≤ y ∧ y < oy + tile.height ∧
          x < canvas.width ∧ y < canvas.height then
        tile.pix (x - ox) (y - oy)
      else canvas.pix x y }

theorem paste_width {α : Type} (c t : Img α) (ox oy : Nat) :
    (paste c t ox oy).width = c.width := rfl

theorem paste_height {α : Type} (c t : Img α) (ox oy : Nat) :
    (paste c t ox oy).height = c.height := rfl

/-- Number of tile columns computed by `createTiledImage`. The source
writes `cols = math.ceil(W / w)`, but under its Python 2 semantics
`W / w` floor-divides before `math.ceil` sees it, so the count is
`floor(W / w)`: fewer columns when `w` does not divide `W`, and zero
columns when `W < w`. -/
def tileGridCols {α : Type} (tile : Img α) (W : Nat) : Nat :=
  W / tile.width

/-- Number of tile rows computed by `createTiledImage`; as with
`tileGridCols`, the Python 2 source effectively computes
`floor(H / h)`. -/
def tileGridRows {α : Type} (tile : Img α) (H : Nat) : Nat :=
  H / tile.height

/-- The first `k` pastes of one grid row `i` of `createTiledImage`
(`for j in range(k): img.paste(tile, (j*w, i*h))`). -/
def pasteRowAux {α : Type} (canvas tile : Img α) (i k : Nat) : Img α :=
  (List.range k).foldl
    (fun im j => paste im tile (j * tile.width) (i * tile.height)) canvas

/-- The first `m` grid rows of the paste loop of `createTiledImage`. -/
def pasteGridAux {α : Type} (canvas tile : Img α) (cols m : Nat) : Img α :=
  (List.range m).foldl (fun im i => pasteRowAux im tile i cols) canvas

/-- Model of `createTiledImage(tile, dims)`: a black canvas of the
requested dimensions with the tile pasted at every grid origin
`(j*w, i*h)` for `i < rows`, `j < cols`. With the floor grid counts
the right and bottom remainder bands (when the tile dimensions do not
divide the canvas dimensions) receive no paste and stay black. -/
def createTiledImage (tile : Img Col) (dims : Nat × Nat) : Img Col :=
  pasteGridAux ⟨dims.1, dims.2, fun _ _ => (0, 0, 0)⟩ tile
    (tileGridCols tile dims.1) (tileGridRows tile dims.2)

section TileLemmas

variable {α : Type}

/-- A window characterization of Nat floor division. -/
theorem div_window (x w k : Nat) (hw : 0 < w) :
    x / w = k ↔ k * w ≤ x ∧ x < k * w + w := by
  constructor
  · intro h
    subst h
    refine ⟨Nat.div_mul_le_self x w, ?_⟩
    have h1 := Nat.mod_add_div x w
    have h2 := Nat.mod_lt x hw
    rw [Nat.mul_comm w (x / w)] at h1
    omega
  · intro ⟨h1, h2⟩
    have hle : k ≤ x / w := (Nat.le_div_iff_mul_le hw).2 h1
    have hlt : x / w < k + 1 := by
      rw [Nat.div_lt_iff_lt_mul hw, Nat.succ_mul]
      omega
    omega

/-- The tile column reached by canvas column `x` is recovered by mod:
if `x` lies in column block `k` then `x - k * w = x % w`. -/
theorem sub_block_eq_mod (x w k : Nat) (hw : 0 < w) (h : x / w = k) :
    x - k * w = x % w := by
  have h1 := Nat.mod_add_div x w
  rw [h, Nat.mul_comm w k] at h1
  omega

theorem pasteRowAux_succ (c t : Img α) (i k : Nat) :
    pasteRowAux c t i (k + 1) =
      paste (pasteRowAux c t i k) t (k * t.width) (i * t.height) := by
  unfold pasteRowAux
  rw [List.range_succ, List.foldl_append, List.foldl_cons, List.foldl_nil]

theorem pasteRowAux_width (c t : Img α) (i k : Nat) :
    (pasteRowAux c t i k).width = c.width := by
  induction k with
  | zero => rfl
  | succ k ih => rw [pasteRowAux_succ, paste_width, ih]

theorem pasteRowAux_height (c t : Img α) (i k : Nat) :
    (pasteRowAux c t i k).height = c.height := by
  induction k with
  | zero => rfl
  | succ k ih => rw [pasteRowAux_succ, paste_height, ih]

/-- Pixel content after one grid row of pastes: a pixel in the
horizontal band of row `i` whose column block index is below `k` holds
the corresponding tile pixel; all other pixels are untouched. -/
theorem pasteRowAux_pix (c t : Img α) (i k x y : Nat) (hw : 0 < t.width) :
    (pasteRowAux c t i k).pix x y =
      if x / t.width < k ∧ i * t.height ≤ y ∧ y < i * t.height + t.height ∧
          x < c.width ∧ y < c.height then
        t.pix (x % t.width) (y - i * t.height)
      else c.pix x y := by
  induction k with
  | zero =>
    rw [if_neg (fun hc => Nat.not_lt_zero _ hc.1)]
    rfl
  | succ k ih =>
    rw [pasteRowAux_succ]
    unfold paste
    simp only [pasteRowAux_width, pasteRowAux_height]
    by_cases hhit : k * t.width ≤ x ∧ x < k * t.width + t.width ∧
        i * t.height ≤ y ∧ y < i * t.height + t.height ∧
        x < c.width ∧ y < c.height
    · have hdiv : x / t.width = k := (div_window x t.width k hw).2 ⟨hhit.1, hhit.2.1⟩
      rw [if_pos hhit, if_pos (by
        refine ⟨by omega, hhit.2.2.1, hhit.2.2.2.1, hhit.2.2.2.2⟩),
        sub_block_eq_mod x t.width k hw hdiv]
    · rw [if_neg hhit, ih]
      by_cases hold : x / t.width < k ∧ i * t.height ≤ y ∧
          y < i * t.height + t.height ∧ x < c.width ∧ y < c.height
      · rw [if_pos hold, if_pos ⟨by omega, hold.2⟩]
      · rw [if_neg hold, if_neg (by
          intro hc
          rcases Nat.lt_or_ge (x / t.width) k with hlt | hge
          · exact hold ⟨hlt, hc.2⟩
          · have hdiv : x / t.width = k := by omega
            have hw2 := (div_window x t.width k hw).1 hdiv
            exact hhit ⟨hw2.1, hw2.2, hc.2⟩)]

theorem pasteGridAux_succ (c t : Img α) (cols m : Nat) :
    pasteGridAux c t cols (m + 1) =
      pasteRowAux (pasteGridAux c t cols m) t m cols := by
  unfold pasteGridAux
  rw [List.range_succ, List.foldl_append, List.foldl_cons, List.foldl_nil]

theorem pasteGridAux_width (c t : Img α) (cols m : Nat) :
    (pasteGridAux c t cols m).width = c.width := by
  induction m with
  | zero => rfl
  | succ m ih => rw [pasteGridAux_succ, pasteRowAux_width, ih]

theorem pasteGridAux_height (c t : Img α) (cols m : Nat) :
    (pasteGridAux c t cols m).height = c.height := by
  induction m with
  | zero => rfl
  | succ m ih => rw [pasteGridAux_succ, pasteRowAux_height, ih]

/-- Pixel content after pasting a full `cols x m` grid of tiles. -/
theorem pasteGridAux_pix (c t : Img α) (cols m x y : Nat)
    (hw : 0 < t.width) (hh : 0 < t.height) :
    (pasteGridAux c t cols m).pix x y =
      if x / t.width < cols ∧ y / t.height < m ∧
          x < c.width ∧ y < c.height then
        t.pix (x % t.width) (y % t.height)
      else c.pix x y := by
  induction m with
  | zero =>
    rw [if_neg (fun hc => Nat.not_lt_zero _ hc.2.1)]
    rfl
  | succ m ih =>
    rw [pasteGridAux_succ,
      pasteRowAux_pix _ t m cols x y hw,
      pasteGridAux_width, pasteGridAux_height, ih]
    by_cases hband : m * t.height ≤ y ∧ y < m * t.height + t.height
    · have hdiv : y / t.height = m := (div_window y t.height m hh).2 hband
      have hsub : y - m * t.height = y % t.height :=
        sub_block_eq_mod y t.height m hh hdiv
      by_cases hrest : x / t.width < cols ∧ x < c.width ∧ y < c.height
      · rw [if_pos ⟨hrest.1, hband.1, hband.2, hrest.2.1, hrest.2.2⟩,
          if_pos ⟨hrest.1, by omega, hrest.2.1, hrest.2.2⟩, hsub]
      · rw [if_neg (fun hc => hrest ⟨hc.1, hc.2.2.2.1, hc.2.2.2.2⟩),
          if_neg (fun hc => hrest ⟨hc.1, hc.2.2⟩),
          if_neg (fun hc => hrest ⟨hc.1, hc.2.2⟩)]
    · have hne : y / t.height ≠ m := by
        intro h
        exact hband ((div_window y t.height m hh).1 h)
      rw [if_neg (fun hc => hband ⟨hc.2.1, hc.2.2.1⟩)]
      by_cases hold : x / t.width < cols ∧ y / t.height < m ∧
          x < c.width ∧ y < c.height
      · rw [if_pos hold, if_pos ⟨hold.1, by omega, hold.2.2⟩]
      · rw [if_neg hold, if_neg (by
          intro hc
          exact hold ⟨hc.1, by omega, hc.2.2⟩)]

end TileLemmas

theorem createTiledImage_width (tile : Img Col) (W H : Nat) :
    (createTiledImage tile (W, H)).width = W :=
  pasteGridAux_width _ _ _ _

theorem createTiledImage_height (tile : Img Col) (W H : Nat) :
    (createTiledImage tile (W, H)).height = H :=
  pasteGridAux_height _ _ _ _

/-- Exact pixel content of the tiled image: pixels inside the pasted
`cols x rows` grid hold the tile pixel at the coordinates reduced
modulo the tile dimensions; all other pixels stay black. -/
theorem createTiledImage_pix_eq (tile : Img Col) (W H x y : Nat)
    (hw : 0 < tile.width) (hh : 0 < tile.height) :
    (createTiledImage tile (W, H)).pix x y =
      if x / tile.width < tileGridCols tile W ∧
          y / tile.height < tileGridRows tile H ∧ x < W ∧ y < H then
        tile.pix (x % tile.width) (y % tile.height)
      else (0, 0, 0) :=
  pasteGridAux_pix ⟨W, H, fun _ _ => (0, 0, 0)⟩ tile
    (tileGridCols tile W) (tileGridRows tile H) x y hw hh

/-- The grid of `cols = floor(W/w)` pasted columns ends at
`cols * w ≤ W` and reaches past `W - w`. -/
theorem tileGridCols_mul_bounds (tile : Img Col) (W : Nat)
    (hw : 0 < tile.width) :
    tileGridCols tile W * tile.width ≤ W ∧
      W < tileGridCols tile W * tile.width + tile.width := by
  unfold tileGridCols
  have h1 := Nat.div_mul_le_self W tile.width
  have h2 := Nat.mod_add_div W tile.width
  have h3 := Nat.mod_lt W hw
  rw [Nat.mul_comm tile.width (W / tile.width)] at h2
  omega

/-- Row analogue of `tileGridCols_mul_bounds`. -/
theorem tileGridRows_mul_bounds (tile : Img Col) (H : Nat)
    (hh : 0 < tile.height) :
    tileGridRows tile H * tile.height ≤ H ∧
      H < tileGridRows tile H * tile.height + tile.height := by
  unfold tileGridRows
  have h1 := Nat.div_mul_le_self H tile.height
  have h2 := Nat.mod_add_div H tile.height
  have h3 := Nat.mod_lt H hh
  rw [Nat.mul_comm tile.height (H / tile.height)] at h2
  omega

/-- Coverage inside the pasted region of the tiled image. -/
theorem createTiledImage_pix_in (tile : Img Col) (W H x y : Nat)
    (hw : 0 < tile.width) (hh : 0 < tile.height)
    (hx : x < tileGridCols tile W * tile.width)
    (hy : y < tileGridRows tile H * tile.height) :
    (createTiledImage tile (W, H)).pix x y =
      tile.pix (x % tile.width) (y % tile.height) := by
  have hbx := tileGridCols_mul_bounds tile W hw
  have hby := tileGridRows_mul_bounds tile H hh
  rw [createTiledImage_pix_eq tile W H x y hw hh,
    if_pos ⟨(Nat.div_lt_iff_lt_mul hw).2 hx, (Nat.div_lt_iff_lt_mul hh).2 hy,
      by omega, by omega⟩]

/-- Pixels of the right or bottom remainder band of the tiled image
(beyond the last pasted grid column or row) stay black. -/
theorem createTiledImage_pix_black (tile : Img Col) (W H x y : Nat)
    (hw : 0 < tile.width) (hh : 0 < tile.height)
    (h : tileGridCols tile W * tile.width ≤ x ∨
      tileGridRows tile H * tile.height ≤ y) :
    (createTiledImage tile (W, H)).pix x y = (0, 0, 0) := by
  rw [createTiledImage_pix_eq tile W H x y hw hh, if_neg]
  intro hc
  obtain ⟨hc1, hc2, _, _⟩ := hc
  rcases h with h | h
  · have h2 : tileGridCols tile W ≤ x / tile.width :=
      (Nat.le_div_iff_mul_le hw).2 h
    omega
  · have h2 : tileGridRows tile H ≤ y / tile.height :=
      (Nat.le_div_iff_mul_le hh).2 h
    omega

/-- A seeded random source: the stream of values the generator will
emit, plus a cursor. Two sources with the same stream and cursor are
in the identical state. -/
structure RNG where
  seq : Nat → Nat
  k : Nat

/-- Model of Python `random.randint(lo, hi)`: consume one stream value
and return a number in the inclusive range `[lo, hi]`. -/
def randint (lo hi : Nat) (g : RNG) : Nat × RNG :=
  (lo + g.seq g.k % (hi + 1 - lo), ⟨g.seq, g.k + 1⟩)

/-- One random dot of `createRandomTile`: center, radius and fill. -/
structure Circle where
  cx : Nat
  cy : Nat
  r : Nat
  fill : Col
deriving DecidableEq

/-- The circles drawn by the loop of `createRandomTile` on a `w x h`
tile: each iteration draws `x, y` from the inclusive ranges
`[0, w - r]` and `[0, h - r]` (in that order), then three fill
components from `[0, 255]`, with the radius `min(w, h) // 100` fixed
once per call. -/
def randomCircles (w h : Nat) : Nat → RNG → List Circle × RNG
  | 0, g => ([], g)
  | n + 1, g =>
    let r := min w h / 100
    let p1 := randint 0 (w - r) g
    let p2 := randint 0 (h - r) p1.2
    let p3 := randint 0 255 p2.2
    let p4 := randint 0 255 p3.2
    let p5 := randint 0 255 p4.2
    let rest := randomCircles w h n p5.2
    (⟨p1.1, p2.1, r, (p3.1, p4.1, p5.1)⟩ :: rest.1, rest.2)

/-- Model of `draw.ellipse((x-r, y-r, x+r, y+r), fill)` on the tile
canvas: fill the disk of the circle, clipped to the canvas. The exact
rasterization rule of the PIL drawing backend is not specified by the
source; the properties proved below depend only on the circle data
(centers, radius, fills) or on the drawing being a deterministic
function of that data, which any rasterizer satisfies. -/
def drawEllipse (im : Img Col) (c : Circle) : Img Col :=
  { im with pix := fun x y =>
      if ((x : Int) - c.cx) ^ 2 + ((y : Int) - c.cy) ^ 2 ≤ (c.r : Int) ^ 2 ∧
          x < im.width ∧ y < im.height then
        c.fill
      else im.pix x y }

/-- Model of `createRandomTile(dims)`: a black RGB image of the given
dimensions on which the 1000 random circles are drawn in order. -/
def createRandomTile (dims : Nat × Nat) (g : RNG) : Img Col :=
  ((randomCircles dims.1 dims.2 1000 g).1).foldl drawEllipse
    ⟨dims.1, dims.2, fun _ _ => (0, 0, 0)⟩

/-- Channel layout of a PIL image, as far as the pipeline inspects it. -/
inductive PMode where
  | L : PMode
  | RGB : PMode
deriving DecidableEq

/-- An input image for `createAutostereogram`: dimensions, channel
mode and pixel grid; a single-channel image stores its level in every
component. -/
structure PyImg where
  width : Nat
  height : Nat
  mode : PMode
  pix : Nat → Nat → Col

/-- The ITU-R 601-2 luma transform used by PIL `convert('L')` for one
RGB pixel, in the exact integer arithmetic Pillow performs. -/
def l601 (p : Col) : Nat :=
  (p.1 * 19595 + p.2.1 * 38470 + p.2.2 * 7471 + 32768) / 65536

/-- Model of `dmap.convert('L')`: same dimensions, luma-reduced
single-channel content. -/
def convertL (im : PyImg) : PyImg :=
  ⟨im.width, im.height, PMode.L,
    fun x y => (l601 (im.pix x y), l601 (im.pix x y), l601 (im.pix x y))⟩

/-- Read a `PyImg` as a single-channel grid. -/
def grayOf (im : PyImg) : Img Nat :=
  ⟨im.width, im.height, fun x y => (im.pix x y).1⟩

/-- Stage 1 of `createAutostereogram`: convert the depth map to
single channel if needed (`if dmap.mode is not 'L'`). -/
def pipelineDmap (dmap : PyImg) : PyImg :=
  if dmap.mode = PMode.L then dmap else convertL dmap

/-- Stage 2 of `createAutostereogram`: resolve the tile, synthesizing
a 100x100 random tile when none is supplied (`if not tile`). -/
def pipelineTile (tile : Option (Img Col)) (g : RNG) : Img Col :=
  match tile with
  | some t => t
  | none => createRandomTile (100, 100) g

/-- Stage 3 of `createAutostereogram`: tile the resolved pattern to
the depth map's dimensions. -/
def pipelineTiled (dmap : PyImg) (tile : Option (Img Col)) (g : RNG) : Img Col :=
  createTiledImage (pipelineTile tile g)
    ((pipelineDmap dmap).width, (pipelineDmap dmap).height)

/-- Model of `createAutostereogram(dmap, tile)`: resample the tiled
image against the depth map with `period = tile.size[0]`. -/
def createAutostereogram (dmap : PyImg) (tile : Option (Img Col)) (g : RNG) :
    Img Col :=
  createDepthShiftedImage (grayOf (pipelineDmap dmap))
    (pipelineTiled dmap tile g) (pipelineTile tile g).width

/-- A heap of single-channel image buffers addressed by naturals,
with an allocation bound. Python names such as `dmap`, `img` and
`sImg` are addresses into the heap; `img.copy()` allocates a fresh
address. -/
structure HeapSt where
  mem : Nat → Img Nat
  next : Nat

/-- Allocate a fresh buffer holding the image `im`. -/
def halloc (st : HeapSt) (im : Img Nat) : Nat × HeapSt :=
  (st.next, ⟨fun a => if a = st.next then im else st.mem a, st.next + 1⟩)

/-- Overwrite the buffer at address `a`. -/
def hwrite (st : HeapSt) (a : Nat) (im : Img Nat) : HeapSt :=
  ⟨fun b => if b = a then im else st.mem b, st.next⟩

/-- Heap-level model of one inner-loop iteration of
`createDepthShiftedImage`: read the depth through `pixD` (address
`dA`), read and write the shifted image through `pixS` (address `sA`).
-/
def shiftStepH (dA sA p cols j : Nat) (st : HeapSt) (i : Nat) : HeapSt :=
  if 0 < (i : Int) - p + xshiftOf (st.mem dA) i j ∧
      (i : Int) - p + xshiftOf (st.mem dA) i j < cols then
    hwrite st sA (setPix (st.mem sA) i j
      ((st.mem sA).pix ((i : Int) - p + xshiftOf (st.mem dA) i j).toNat j))
  else st

/-- Heap-level inner loop over one row. -/
def shiftRowH (dA sA p cols j : Nat) (st : HeapSt) (k : Nat) : HeapSt :=
  (List.range k).foldl (shiftStepH dA sA p cols j) st

/-- Heap-level outer loop over the rows. -/
def shiftRowsH (dA sA p cols : Nat) (st : HeapSt) (m : Nat) : HeapSt :=
  (List.range m).foldl (fun t j => shiftRowH dA sA p cols j t cols) st

/-- Heap-level model of `createDepthShiftedImage(dmap, img, period)`
with explicit buffers: copy the image at `iA` into a fresh buffer,
then run the double loop writing only through that fresh buffer, and
return its address together with the final heap. -/
def createDepthShiftedImageH (st : HeapSt) (dA iA p : Nat) : Nat × HeapSt :=
  let sA := (halloc st (st.mem iA)).1
  let st1 := (halloc st (st.mem iA)).2
  (sA, shiftRowsH dA sA p ((st1.mem sA)).width st1 ((st1.mem sA)).height)

/-- Fold two sequences of steps in lockstep along a relation. -/
theorem foldl_rel {β γ δ : Type} (R : β → γ → Prop) (f : β → δ → β)
    (g : γ → δ → γ) (h : ∀ b c a, R b c → R (f b a) (g c a)) :
    ∀ (l : List δ) (b : β) (c : γ), R b c →
      R (List.foldl f b l) (List.foldl g c l) := by
  intro l
  induction l with
  | nil => exact fun b c hb => hb
  | cons a l ih =>
    intro b c hb
    exact ih (f b a) (g c a) (h b c a hb)

/-! Claim theorems. -/

/-- C1 counterexample: the first `period` columns are NOT always left
unchanged. With a 3x1 tiled image `[5, 6, 7]`, a depth map that is
constantly 30 and `period = 2`, column 1 lies in the reference strip
(`1 < 2`) yet `xpos = 1 - 2 + 30/10 = 2` satisfies `0 < xpos < 3`, so
the resampler overwrites it: the output at `(1, 0)` is 7, not the
pre-resampling value 6. The claimed property fails for this depth
map even though the dimensions agree and the period is positive. -/
theorem C1_counterexample :
    (0 : Nat) < 2 ∧ (1 : Nat) < 2 ∧
    (⟨3, 1, fun _ _ => 30⟩ : Img Nat).width =
      (⟨3, 1, fun x _ => x + 5⟩ : Img Nat).width ∧
    (⟨3, 1, fun _ _ => 30⟩ : Img Nat).height =
      (⟨3, 1, fun x _ => x + 5⟩ : Img Nat).height ∧
    (createDepthShiftedImage (⟨3, 1, fun _ _ => 30⟩ : Img Nat)
        (⟨3, 1, fun x _ => x + 5⟩ : Img Nat) 2).pix 1 0 ≠
      (⟨3, 1, fun x _ => x + 5⟩ : Img Nat).pix 1 0 := by
  decide

/-- C1 amended: the resampler leaves a pixel of the reference strip
(`i < period`) unchanged provided its depth shift is small enough
that `xpos = i - period + floor(D[i,j]/10)` is not positive, i.e.
`floor(D[i,j]/10) ≤ period - i` (in particular for any depth below
`10 * (period - i)`, and always when the depth map is fully below 10).
-/
theorem C1_amended {α : Type} (d : Img Nat) (s : Img α) (p i j : Nat)
    (hdw : d.width = s.width) (hdh : d.height = s.height) (hp : 0 < p)
    (hip : i < p) (hsh : xshiftOf d i j ≤ p - i) :
    (createDepthShiftedImage d s p).pix i j = s.pix i j := by
  rcases Nat.lt_or_ge j s.height with hj | hj
  · rw [createDepthShiftedImage_pix_lt d s p i j hj]
    rcases Nat.lt_or_ge i s.width with hi | hi
    · rw [shiftRowAux_pix_stable d p s.width j s s.width i hi,
        shiftRowAux_pix_val, if_neg (by
          intro hcc
          have := hcc.1
          omega)]
    · exact shiftRowAux_pix_frozen d p s.width j s s.width i j (Or.inr hi)
  · exact createDepthShiftedImage_pix_ge d s p i j hj

/-- C1 amended witness at a concrete input: depth 10, period 2,
column 1: `floor(10/10) = 1 ≤ 2 - 1`, and the pixel is untouched. -/
theorem C1_amended_witness :
    (createDepthShiftedImage (⟨3, 1, fun _ _ => 10⟩ : Img Nat)
        (⟨3, 1, fun x _ => x + 5⟩ : Img Nat) 2).pix 1 0 =
      (⟨3, 1, fun x _ => x + 5⟩ : Img Nat).pix 1 0 :=
  C1_amended (⟨3, 1, fun _ _ => 10⟩ : Img Nat)
    (⟨3, 1, fun x _ => x + 5⟩ : Img Nat) 2 1 0 rfl rfl
    (by decide) (by decide) (by decide)

/-- C2: the displacement applied at every pixel is the integer
`xshift = floor(D[i,j] / 10)`; an 8-bit depth sample bounds it by
`floor(255/10) = 25` (it is a natural number, hence also at least 0),
and when the guard `0 < i - period + xshift < cols` holds, the inner
loop assigns to `(i, j)` exactly the source pixel at column
`i - period + xshift` of the same row. -/
theorem C2_shift_range {α : Type} (d : Img Nat) (s : Img α) (p cols i j : Nat)
    (h255 : d.pix i j ≤ 255) :
    xshiftOf d i j ≤ 25 ∧
    (0 < (i : Int) - p + xshiftOf d i j →
      (i : Int) - p + xshiftOf d i j < cols →
      (shiftStep d p cols j s i).pix i j =
        s.pix ((i : Int) - p + xshiftOf d i j).toNat j) := by
  constructor
  · unfold xshiftOf
    omega
  · intro h1 h2
    unfold shiftStep
    rw [if_pos ⟨h1, h2⟩, setPix_pix, if_pos ⟨rfl, rfl⟩]

/-- C2 witness: at depth 255, period 1, column 0 of a 30-wide row
holding its column index, the shift is 25 and the source column is
`0 - 1 + 25 = 24`. -/
theorem C2_shift_range_witness :
    (shiftStep (⟨30, 1, fun _ _ => 255⟩ : Img Nat) 1 30 0
        (⟨30, 1, fun x _ => x⟩ : Img Nat) 0).pix 0 0 =
      (⟨30, 1, fun x _ => x⟩ : Img Nat).pix 24 0 :=
  (C2_shift_range (⟨30, 1, fun _ _ => 255⟩ : Img Nat)
    (⟨30, 1, fun x _ => x⟩ : Img Nat) 1 30 0 0 (by decide)).2
    (by decide) (by decide)

/-- C3: the in-place pass makes writes at earlier columns visible to
reads at later columns of the same row, and this is observable: there
is an input (a zero depth map, the 4x1 image `[5, 6, 7, 8]`, period 1)
on which the in-place pass and the immutable-pre-pass-copy variant
produce different outputs. At that input the pass writes column 2
(changing it from 7 to 6) and the read for column 3 sees that write,
while the copy variant reads the stale 7. -/
theorem C3_in_place_differs :
    ∃ (d s : Img Nat) (p i j : Nat),
      d.width = s.width ∧ d.height = s.height ∧ 0 < p ∧
      (createDepthShiftedImage d s p).pix i j =
        (createDepthShiftedImage d s p).pix (i - 1) j ∧
      (createDepthShiftedImage d s p).pix (i - 1) j ≠ s.pix (i - 1) j ∧
      (createDepthShiftedImage d s p).pix i j ≠
        (createDepthShiftedImageCopy d s p).pix i j :=
  ⟨⟨4, 1, fun _ _ => 0⟩, ⟨4, 1, fun x _ => x + 5⟩, 1, 3, 0, by decide⟩

/-- C4 counterexample: with a constant depth map the output pixel does
NOT always equal the pre-resampling tiled pixel at
`i - period + floor(d/10)`. Take the 4x1 image `[5, 6, 5, 6]` (a
2-periodic tiling), depth constantly 10 and `period = 2`: at `i = 3`
the guard holds (`0 < 3 - 2 + 1 = 2 < 4`), but the source column 2 was
itself overwritten earlier in the same in-place pass (with 6), so the
output at `(3, 0)` is 6 while the pre-resampling value at column 2 is
5. -/
theorem C4_counterexample :
    (2 : Nat) ≤ 3 ∧
    (0 : Int) < (3 : Int) - 2 + ((10 : Nat) / 10 : Nat) ∧
    (3 : Int) - 2 + ((10 : Nat) / 10 : Nat) < 4 ∧
    (createDepthShiftedImage (⟨4, 1, fun _ _ => 10⟩ : Img Nat)
        (⟨4, 1, fun x _ => if x % 2 = 0 then 5 else 6⟩ : Img Nat) 2).pix 3 0 ≠
      (⟨4, 1, fun x _ => if x % 2 = 0 then 5 else 6⟩ : Img Nat).pix
        (3 - 2 + 10 / 10) 0 := by
  decide

/-- C4 amended: under a constant depth `v`, the uniform-disparity
relation `Output[i,j] = S[i - period + floor(v/10), j]` holds exactly
when the value read at the source column is still the pre-resampling
one, i.e. under the additional hypothesis
`period ≤ floor(v/10) ∨ i - 2*period + 2*floor(v/10) ≤ 0`: either the
source column lies at or to the right of `i` and is still unprocessed
when read, or it lies to the left but its own write guard
`0 < xpos` failed so it was never overwritten. Outside this condition
the in-place pass reads an already-shifted pixel and the relation to
the pre-resampling image fails (see the counterexample, where
`floor(d/10) < period` and the source column was overwritten). -/
theorem C4_amended {α : Type} (d : Img Nat) (s : Img α) (v p i j : Nat)
    (hdw : d.width = s.width) (hdh : d.height = s.height)
    (hconst : ∀ x y, d.pix x y = v)
    (hj : j < s.height) (hi : i < s.width) (hip : p ≤ i)
    (hpos : 0 < (i : Int) - p + ((v / 10 : Nat) : Int))
    (hlt : (i : Int) - p + ((v / 10 : Nat) : Int) < s.width)
    (hamend : p ≤ v / 10 ∨
      (i : Int) - 2 * p + 2 * ((v / 10 : Nat) : Int) ≤ 0) :
    (createDepthShiftedImage d s p).pix i j = s.pix (i - p + v / 10) j := by
  have hxs : ∀ x, xshiftOf d x j = v / 10 := fun x => by
    unfold xshiftOf
    rw [hconst]
  have hc : ((i : Int) - p + ((v / 10 : Nat) : Int)).toNat = i - p + v / 10 := by
    omega
  rw [createDepthShiftedImage_pix_lt d s p i j hj,
    shiftRowAux_pix_stable d p s.width j s s.width i hi,
    shiftRowAux_pix_val, hxs, if_pos ⟨hpos, hlt⟩, hc]
  rcases hamend with hcase | hcase
  · exact shiftRowAux_pix_frozen d p s.width j s i (i - p + v / 10) j
      (Or.inr (by omega))
  · have hci : i - p + v / 10 < i := by omega
    rw [shiftRowAux_pix_stable d p s.width j s i (i - p + v / 10) hci,
      shiftRowAux_pix_val, hxs, if_neg (by
        intro hcc
        have := hcc.1
        omega)]

/-- C4 amended witness in the `xshift ≥ period` regime: constant
depth 20 (shift 2), period 1, column 1 of the 4x1 row `[5, 6, 7, 8]`:
the source column 2 lies to the right of the read and still holds its
pre-resampling value 7. -/
theorem C4_amended_witness :
    (createDepthShiftedImage (⟨4, 1, fun _ _ => 20⟩ : Img Nat)
        (⟨4, 1, fun x _ => x + 5⟩ : Img Nat) 1).pix 1 0 =
      (⟨4, 1, fun x _ => x + 5⟩ : Img Nat).pix (1 - 1 + 20 / 10) 0 :=
  C4_amended (⟨4, 1, fun _ _ => 20⟩ : Img Nat)
    (⟨4, 1, fun x _ => x + 5⟩ : Img Nat) 20 1 1 0 rfl rfl
    (fun _ _ => rfl) (by decide) (by decide) (by decide)
    (by decide) (by decide) (Or.inl (by decide))

/-- Under an all-zero depth map with `period` equal to the tile width,
the pass leaves the first `period + 1` columns of a row unchanged:
there `xpos = i - period ≤ 0` fails the strict guard. -/
theorem zeroDepth_row_strip (tile : Img Col) (d : Img Nat) (W H j : Nat)
    (hzero : ∀ x y, d.pix x y = 0) :
    ∀ x, x ≤ tile.width →
      (shiftRowAux d tile.width W j (createTiledImage tile (W, H)) W).pix x j =
        (createTiledImage tile (W, H)).pix x j := by
  intro x hx
  rcases Nat.lt_or_ge x W with hxW | hxW
  · rw [shiftRowAux_pix_stable d tile.width W j _ W x hxW,
      shiftRowAux_pix_val,
      (show xshiftOf d x j = 0 from by unfold xshiftOf; rw [hzero]),
      if_neg (by
        intro hcc
        have := hcc.1
        omega)]
  · exact shiftRowAux_pix_frozen d tile.width W j _ W x j (Or.inr hxW)

/-- Under an all-zero depth map with `period` equal to the tile width,
each full row pass sends column `i > period` to the pre-resampling
tiled pixel at `i - period`: the chain of in-place copies bottoms out
in the untouched strip, and the source column `i - period` never lands
in the unpasted remainder band (it stays at least one period left of
`i < W`), so by induction the copied value agrees with the tiled
pixel at `i - period` whether the row is pasted or all black. -/
theorem zeroDepth_row_shift (tile : Img Col) (d : Img Nat) (W H j : Nat)
    (hw : 0 < tile.width) (hh : 0 < tile.height)
    (hzero : ∀ x y, d.pix x y = 0) (hj : j < H) :
    ∀ i, tile.width < i → i < W →
      (shiftRowAux d tile.width W j (createTiledImage tile (W, H)) W).pix i j =
        (createTiledImage tile (W, H)).pix (i - tile.width) j := by
  intro i
  induction i using Nat.strong_induction_on with
  | _ i ih =>
    intro hip hi
    rw [shiftRowAux_pix_stable d tile.width W j _ W i hi,
      shiftRowAux_pix_val,
      (show xshiftOf d i j = 0 from by unfold xshiftOf; rw [hzero]),
      if_pos ⟨by omega, by omega⟩]
    have htn : ((i : Int) - tile.width + ((0 : Nat) : Int)).toNat =
        i - tile.width := by omega
    rw [htn,
      shiftRowAux_pix_stable d tile.width W j _ i (i - tile.width) (by omega),
      ← shiftRowAux_pix_stable d tile.width W j _ W (i - tile.width) (by omega)]
    rcases Nat.lt_or_ge tile.width (i - tile.width) with hsm | hsm
    swap
    · exact zeroDepth_row_strip tile d W H j hzero (i - tile.width) hsm
    · rw [ih (i - tile.width) (by omega) hsm (by omega)]
      have hbx := tileGridCols_mul_bounds tile W hw
      by_cases hrow : j < tileGridRows tile H * tile.height
      · rw [createTiledImage_pix_in tile W H (i - tile.width - tile.width) j
            hw hh (by omega) hrow,
          createTiledImage_pix_in tile W H (i - tile.width) j hw hh
            (by omega) hrow]
        have hmod : (i - tile.width - tile.width) % tile.width =
            (i - tile.width) % tile.width := by
          conv_rhs => rw [show i - tile.width =
            (i - tile.width - tile.width) + tile.width by omega]
          rw [Nat.add_mod_right]
        rw [hmod]
      · rw [createTiledImage_pix_black tile W H (i - tile.width - tile.width) j
            hw hh (Or.inr (by omega)),
          createTiledImage_pix_black tile W H (i - tile.width) j hw hh
            (Or.inr (by omega))]

/-- C5: with an all-zero depth map and `period` equal to the tile
width, the output at every valid column `i` with `0 < i - period`
equals the pre-resampling tiled pixel at column `i - period`: a flat
zero depth map introduces no distortion beyond the periodic
repetition. -/
theorem C5_flat_depth (tile : Img Col) (d : Img Nat) (W H i j : Nat)
    (hw : 0 < tile.width) (hh : 0 < tile.height)
    (hdw : d.width = W) (hdh : d.height = H)
    (hzero : ∀ x y, d.pix x y = 0)
    (hj : j < H) (hi : i < W) (hip : tile.width < i) :
    (createDepthShiftedImage d (createTiledImage tile (W, H))
        tile.width).pix i j =
      (createTiledImage tile (W, H)).pix (i - tile.width) j := by
  have hj2 : j < (createTiledImage tile (W, H)).height := by
    rw [createTiledImage_height]
    exact hj
  rw [createDepthShiftedImage_pix_lt d _ tile.width i j hj2,
    createTiledImage_width tile W H]
  exact zeroDepth_row_shift tile d W H j hw hh hzero hj i hip hi

/-- C5 witness: a 1x1 tile on a 3x1 canvas, zero depth, period 1,
column 2. -/
theorem C5_flat_depth_witness :
    (createDepthShiftedImage (⟨3, 1, fun _ _ => 0⟩ : Img Nat)
        (createTiledImage (⟨1, 1, fun _ _ => (9, 9, 9)⟩ : Img Col) (3, 1))
        1).pix 2 0 =
      (createTiledImage (⟨1, 1, fun _ _ => (9, 9, 9)⟩ : Img Col) (3, 1)).pix
        (2 - 1) 0 :=
  C5_flat_depth (⟨1, 1, fun _ _ => (9, 9, 9)⟩ : Img Col)
    (⟨3, 1, fun _ _ => 0⟩ : Img Nat) 3 1 2 0
    (by decide) (by decide) rfl rfl (fun _ _ => rfl)
    (by decide) (by decide) (by decide)

/-- C7 counterexample: the Python 2 source floor-divides before
`math.ceil`, so the grid counts are NOT `ceil(W/w) x ceil(H/h)` and
coverage is NOT total. For an all-white 2x1 tile on a 5x1 canvas the
computed column count is `5 / 2 = 2`, not `ceil(5/2) = 3`, and the
pixel at column 4 stays black instead of holding the tile pixel. For
the same tile on a 1x1 canvas the column count is 0 — no placement at
all, not one clipped placement — and the canvas stays black. -/
theorem C7_counterexample :
    tileGridCols (⟨2, 1, fun _ _ => (1, 1, 1)⟩ : Img Col) 5 = 2 ∧
    (5 + 2 - 1) / 2 = 3 ∧
    (createTiledImage (⟨2, 1, fun _ _ => (1, 1, 1)⟩ : Img Col) (5, 1)).pix 4 0 ≠
      (⟨2, 1, fun _ _ => (1, 1, 1)⟩ : Img Col).pix (4 % 2) (0 % 1) ∧
    tileGridCols (⟨2, 1, fun _ _ => (1, 1, 1)⟩ : Img Col) 1 = 0 ∧
    tileGridCols (⟨2, 1, fun _ _ => (1, 1, 1)⟩ : Img Col) 1 ≠ 1 ∧
    (createTiledImage (⟨2, 1, fun _ _ => (1, 1, 1)⟩ : Img Col) (1, 1)).pix 0 0 =
      (0, 0, 0) := by
  refine ⟨by decide, by decide, by decide, by decide, by decide, by decide⟩

/-- C7 amended: `createTiledImage` computes `cols = floor(W/w)` and
`rows = floor(H/h)` (the Python 2 `/` floor-divides before
`math.ceil`), pastes the full tile at origin `(j*w, i*h)` for every
cell of that grid, and produces a `W x H` image in which every pixel
of the pasted region `[0, cols*w) x [0, rows*h)` holds
`tile[x mod w, y mod h]` while the right and bottom remainder bands
stay black. When the tile dimensions divide the canvas dimensions the
pasted region is the whole canvas — for tile (100,100) and canvas
(400,200) the grid is exactly 4x2 with no unfilled pixel; a tile wider
than the canvas yields zero placements, not a clipped one. -/
theorem C7_amended (tile : Img Col) (W H : Nat)
    (hw : 0 < tile.width) (hh : 0 < tile.height) :
    (createTiledImage tile (W, H)).width = W ∧
    (createTiledImage tile (W, H)).height = H ∧
    (∀ x y, x < tileGridCols tile W * tile.width →
      y < tileGridRows tile H * tile.height →
      (createTiledImage tile (W, H)).pix x y =
        tile.pix (x % tile.width) (y % tile.height)) ∧
    (∀ x y, x < W → y < H →
      tileGridCols tile W * tile.width ≤ x ∨
        tileGridRows tile H * tile.height ≤ y →
      (createTiledImage tile (W, H)).pix x y = (0, 0, 0)) ∧
    (tile.width = 100 → tileGridCols tile 400 = 4 ∧
      tileGridCols tile 400 * tile.width = 400) ∧
    (tile.height = 100 → tileGridRows tile 200 = 2 ∧
      tileGridRows tile 200 * tile.height = 200) ∧
    (W < tile.width → tileGridCols tile W = 0) := by
  refine ⟨createTiledImage_width tile W H, createTiledImage_height tile W H,
    fun x y hx hy => createTiledImage_pix_in tile W H x y hw hh hx hy,
    fun x y _ _ h => createTiledImage_pix_black tile W H x y hw hh h,
    ?_, ?_, ?_⟩
  · intro h100
    unfold tileGridCols
    rw [h100]
    exact ⟨rfl, rfl⟩
  · intro h100
    unfold tileGridRows
    rw [h100]
    exact ⟨rfl, rfl⟩
  · intro hlt
    unfold tileGridCols
    exact Nat.div_eq_of_lt hlt

/-- C7 amended witness: a 2x2 tile on a 5x3 canvas; the pixel at
`(3, 1)` lies in the pasted 2x1 grid and holds the tile pixel at
`(1, 1)`, while the pixel at `(4, 1)` lies in the right remainder
band and is black. -/
theorem C7_amended_witness :
    (createTiledImage (⟨2, 2, fun x y => (x, y, 0)⟩ : Img Col) (5, 3)).pix 3 1 =
      (⟨2, 2, fun x y => (x, y, 0)⟩ : Img Col).pix (3 % 2) (1 % 2) ∧
    (createTiledImage (⟨2, 2, fun x y => (x, y, 0)⟩ : Img Col) (5, 3)).pix 4 1 =
      (0, 0, 0) :=
  ⟨(C7_amended (⟨2, 2, fun x y => (x, y, 0)⟩ : Img Col) 5 3
      (by decide) (by decide)).2.2.1 3 1 (by decide) (by decide),
    (C7_amended (⟨2, 2, fun x y => (x, y, 0)⟩ : Img Col) 5 3
      (by decide) (by decide)).2.2.2.1 4 1 (by decide) (by decide)
      (Or.inl (by decide))⟩

/-- Python `randint(lo, hi)` with `lo ≤ hi` stays within the
inclusive upper bound. -/
theorem randint_le (lo hi : Nat) (g : RNG) (h : lo ≤ hi) :
    (randint lo hi g).1 ≤ hi := by
  unfold randint
  have hb := Nat.mod_lt (g.seq g.k) (show 0 < hi + 1 - lo by omega)
  omega

/-- Every circle produced by the dot loop has the fixed per-call
radius `min(w,h) // 100` and a center drawn from the inclusive ranges
`[0, w - r]` and `[0, h - r]` (Python `randint` includes both
endpoints). -/
theorem randomCircles_bounds (w h : Nat) :
    ∀ (n : Nat) (g : RNG) (c : Circle), c ∈ (randomCircles w h n g).1 →
      c.r = min w h / 100 ∧ c.cx ≤ w - min w h / 100 ∧
      c.cy ≤ h - min w h / 100 := by
  intro n
  induction n with
  | zero =>
    intro g c hc
    simp [randomCircles] at hc
  | succ n ih =>
    intro g c hc
    simp only [randomCircles] at hc
    rcases List.mem_cons.1 hc with hc | hc
    · subst hc
      exact ⟨rfl,
        randint_le 0 (w - min w h / 100) g (Nat.zero_le _),
        randint_le 0 (h - min w h / 100)
          (randint 0 (w - min w h / 100) g).2 (Nat.zero_le _)⟩
    · exact ih _ c hc

/-- C6 counterexample: circles ARE cut off by the tile edges and
centers are NOT drawn from the claimed half-open ranges. For a
100x100 tile the radius is 1. A random stream of zeros puts the first
center at `(0, 0)`, whose bounding box `(-1, -1, 1, 1)` extends past
the left and top edges (`0 - 1 < 0`), so that circle is clipped. A
random stream of 99s puts the first center at `(99, 99)` (Python
`randint(0, 99)` includes 99 = `w - r`), which lies outside the
claimed half-open range `[0, w - r) = [0, 99)` and whose bounding box
reaches column `x + r = 100`, outside `[0, 100)`. -/
theorem C6_counterexample :
    (randomCircles 100 100 1000 ⟨fun _ => 0, 0⟩).1.head? =
      some ⟨0, 0, 1, (0, 0, 0)⟩ ∧
    (randomCircles 100 100 1000 ⟨fun _ => 99, 0⟩).1.head? =
      some ⟨99, 99, 1, (99, 99, 99)⟩ ∧
    ((0 : Int) - 1 < 0) ∧ ¬((99 : Nat) < 100 - 1) ∧ ¬((99 : Nat) + 1 < 100) := by
  refine ⟨by decide, by decide, by decide, by decide, by decide⟩

/-- C6 amended: every circle drawn by `createRandomTile` for a `(w,h)`
tile has the fixed radius `min(w,h) // 100` and a center in the
inclusive ranges `[0, w - r] x [0, h - r]`; consequently
`cx + r ≤ w` and `cy + r ≤ h`, so the bounding box never extends past
`w` or `h`, but it may touch column `w` or row `h` (which are clipped)
and may extend up to `r` past the left and top edges when the center
is within `r` of them. -/
theorem C6_amended (w h : Nat) (g : RNG) (c : Circle)
    (hc : c ∈ (randomCircles w h 1000 g).1) :
    c.r = min w h / 100 ∧ c.cx ≤ w - c.r ∧ c.cy ≤ h - c.r ∧
    c.cx + c.r ≤ w ∧ c.cy + c.r ≤ h := by
  obtain ⟨h1, h2, h3⟩ := randomCircles_bounds w h 1000 g c hc
  have hrw : min w h / 100 ≤ w :=
    le_trans (Nat.div_le_self _ _) (min_le_left w h)
  have hrh : min w h / 100 ≤ h :=
    le_trans (Nat.div_le_self _ _) (min_le_right w h)
  refine ⟨h1, ?_, ?_, ?_, ?_⟩ <;> omega

/-- C6 amended witness: the first circle of the all-zeros stream on a
100x100 tile. -/
theorem C6_amended_witness :
    (⟨0, 0, 1, (0, 0, 0)⟩ : Circle).r = min 100 100 / 100 ∧
    (⟨0, 0, 1, (0, 0, 0)⟩ : Circle).cx ≤
      100 - (⟨0, 0, 1, (0, 0, 0)⟩ : Circle).r ∧
    (⟨0, 0, 1, (0, 0, 0)⟩ : Circle).cy ≤
      100 - (⟨0, 0, 1, (0, 0, 0)⟩ : Circle).r ∧
    (⟨0, 0, 1, (0, 0, 0)⟩ : Circle).cx + (⟨0, 0, 1, (0, 0, 0)⟩ : Circle).r ≤
      100 ∧
    (⟨0, 0, 1, (0, 0, 0)⟩ : Circle).cy + (⟨0, 0, 1, (0, 0, 0)⟩ : Circle).r ≤
      100 :=
  C6_amended 100 100 ⟨fun _ => 0, 0⟩ ⟨0, 0, 1, (0, 0, 0)⟩ (by decide)

/-- C8: the random source (stream plus cursor) is the only source of
variation: two runs from identical random-source states produce the
identical circle sequence, a byte-identical tile, and a
byte-identical pipeline output for any depth map and tile argument;
moreover the radius is computed once per call (every drawn circle
carries the same radius `min(w,h) // 100`). -/
theorem C8_determinism (w h : Nat) (g1 g2 : RNG)
    (hseq : ∀ n, g1.seq n = g2.seq n) (hk : g1.k = g2.k) :
    randomCircles w h 1000 g1 = randomCircles w h 1000 g2 ∧
    createRandomTile (w, h) g1 = createRandomTile (w, h) g2 ∧
    (∀ dmap tile, createAutostereogram dmap tile g1 =
      createAutostereogram dmap tile g2) ∧
    (∀ c, c ∈ (randomCircles w h 1000 g1).1 → c.r = min w h / 100) := by
  have hg : g1 = g2 := by
    cases g1 with
    | mk s1 k1 =>
      cases g2 with
      | mk s2 k2 =>
        have hs : s1 = s2 := funext hseq
        have hk2 : k1 = k2 := hk
        rw [hs, hk2]
  rw [hg]
  exact ⟨rfl, rfl, fun _ _ => rfl,
    fun c hc => (randomCircles_bounds w h 1000 g2 c hc).1⟩

/-- C8 witness: two syntactically different but pointwise equal
random-source states give the identical tile and identical pipeline
output on a concrete depth map. -/
theorem C8_determinism_witness :
    createRandomTile (100, 100) ⟨fun n => n, 0⟩ =
      createRandomTile (100, 100) ⟨fun n => 0 + n, 0⟩ ∧
    createAutostereogram (⟨2, 2, PMode.L, fun _ _ => (7, 7, 7)⟩ : PyImg)
        none ⟨fun n => n, 0⟩ =
      createAutostereogram (⟨2, 2, PMode.L, fun _ _ => (7, 7, 7)⟩ : PyImg)
        none ⟨fun n => 0 + n, 0⟩ :=
  ⟨(C8_determinism 100 100 ⟨fun n => n, 0⟩ ⟨fun n => 0 + n, 0⟩
      (fun n => (Nat.zero_add n).symm) rfl).2.1,
    (C8_determinism 100 100 ⟨fun n => n, 0⟩ ⟨fun n => 0 + n, 0⟩
      (fun n => (Nat.zero_add n).symm) rfl).2.2.1
      (⟨2, 2, PMode.L, fun _ _ => (7, 7, 7)⟩ : PyImg) none⟩

/-- C9: every stage of the pipeline preserves the depth map's
dimensions: the (possibly converted) depth map, the tiled image and
the final output all have exactly the input depth map's width and
height, for every channel mode, optional tile and random state. -/
theorem C9_dims (dmap : PyImg) (tile : Option (Img Col)) (g : RNG) :
    (pipelineDmap dmap).width = dmap.width ∧
    (pipelineDmap dmap).height = dmap.height ∧
    (pipelineTiled dmap tile g).width = dmap.width ∧
    (pipelineTiled dmap tile g).height = dmap.height ∧
    (createAutostereogram dmap tile g).width = dmap.width ∧
    (createAutostereogram dmap tile g).height = dmap.height := by
  have h1 : (pipelineDmap dmap).width = dmap.width := by
    unfold pipelineDmap
    split <;> rfl
  have h2 : (pipelineDmap dmap).height = dmap.height := by
    unfold pipelineDmap
    split <;> rfl
  have h3 : (pipelineTiled dmap tile g).width = dmap.width := by
    unfold pipelineTiled
    rw [createTiledImage_width]
    exact h1
  have h4 : (pipelineTiled dmap tile g).height = dmap.height := by
    unfold pipelineTiled
    rw [createTiledImage_height]
    exact h2
  refine ⟨h1, h2, h3, h4, ?_, ?_⟩
  · unfold createAutostereogram
    rw [createDepthShiftedImage_width]
    exact h3
  · unfold createAutostereogram
    rw [createDepthShiftedImage_height]
    exact h4

theorem shiftRowH_succ (dA sA p cols j : Nat) (st : HeapSt) (k : Nat) :
    shiftRowH dA sA p cols j st (k + 1) =
      shiftStepH dA sA p cols j (shiftRowH dA sA p cols j st k) k := by
  unfold shiftRowH
  rw [List.range_succ, List.foldl_append, List.foldl_cons, List.foldl_nil]

theorem shiftRowsH_succ (dA sA p cols : Nat) (st : HeapSt) (m : Nat) :
    shiftRowsH dA sA p cols st (m + 1) =
      shiftRowH dA sA p cols m (shiftRowsH dA sA p cols st m) cols := by
  unfold shiftRowsH
  rw [List.range_succ, List.foldl_append, List.foldl_cons, List.foldl_nil]

/-- The heap-level inner loop writes only the buffer at `sA`. -/
theorem shiftRowH_frame (dA sA p cols j k : Nat) (st : HeapSt) (a : Nat)
    (ha : a ≠ sA) :
    (shiftRowH dA sA p cols j st k).mem a = st.mem a := by
  induction k with
  | zero => rfl
  | succ k ih =>
    rw [shiftRowH_succ]
    unfold shiftStepH
    split
    · show (hwrite _ sA _).mem a = _
      unfold hwrite
      simp only [if_neg ha]
      exact ih
    · exact ih

/-- The heap-level outer loop writes only the buffer at `sA`. -/
theorem shiftRowsH_frame (dA sA p cols m : Nat) (st : HeapSt) (a : Nat)
    (ha : a ≠ sA) :
    (shiftRowsH dA sA p cols st m).mem a = st.mem a := by
  induction m with
  | zero => rfl
  | succ m ih =>
    rw [shiftRowsH_succ, shiftRowH_frame dA sA p cols m cols _ a ha]
    exact ih

/-- The buffer at `sA` evolves under the heap-level inner loop exactly
as the purely functional inner pass evolves the image it holds,
provided the depth buffer lives at a different address. -/
theorem shiftRowH_spec (dA sA p cols j k : Nat) (st : HeapSt)
    (d0 s0 : Img Nat) (hdA : dA ≠ sA)
    (hs : st.mem sA = s0) (hd : st.mem dA = d0) :
    (shiftRowH dA sA p cols j st k).mem sA = shiftRowAux d0 p cols j s0 k := by
  induction k with
  | zero => exact hs
  | succ k ih =>
    rw [shiftRowH_succ, shiftRowAux_succ]
    have hdk : (shiftRowH dA sA p cols j st k).mem dA = d0 := by
      rw [shiftRowH_frame dA sA p cols j k st dA hdA]
      exact hd
    unfold shiftStepH shiftStep
    rw [hdk, ih]
    split
    · show (hwrite _ sA _).mem sA = _
      unfold hwrite
      simp
    · exact ih

/-- The buffer at `sA` evolves under the heap-level double loop
exactly as the purely functional double loop evolves the image it
holds. -/
theorem shiftRowsH_spec (dA sA p cols m : Nat) (st : HeapSt)
    (d0 s0 : Img Nat) (hdA : dA ≠ sA)
    (hs : st.mem sA = s0) (hd : st.mem dA = d0) :
    (shiftRowsH dA sA p cols st m).mem sA = shiftRows d0 p cols s0 m := by
  induction m with
  | zero => exact hs
  | succ m ih =>
    rw [shiftRowsH_succ, shiftRows_succ]
    exact shiftRowH_spec dA sA p cols m cols _ d0 _ hdA ih
      (by rw [shiftRowsH_frame dA sA p cols m st dA hdA]; exact hd)

/-- C10: at the heap level, `createDepthShiftedImage` allocates a
fresh buffer for the copy, returns that distinct buffer, leaves the
depth-map buffer and the input-image buffer exactly as they were, and
the returned buffer holds precisely the value computed by the
functional model from the pre-call contents of the two arguments. -/
theorem C10_frame (st : HeapSt) (dA iA p : Nat)
    (h1 : dA < st.next) (h2 : iA < st.next) :
    (createDepthShiftedImageH st dA iA p).1 ≠ dA ∧
    (createDepthShiftedImageH st dA iA p).1 ≠ iA ∧
    (createDepthShiftedImageH st dA iA p).2.mem dA = st.mem dA ∧
    (createDepthShiftedImageH st dA iA p).2.mem iA = st.mem iA ∧
    (createDepthShiftedImageH st dA iA p).2.mem
        (createDepthShiftedImageH st dA iA p).1 =
      createDepthShiftedImage (st.mem dA) (st.mem iA) p := by
  have hdne : dA ≠ st.next := by omega
  have hine : iA ≠ st.next := by omega
  have hmem1 : ((halloc st (st.mem iA)).2).mem st.next = st.mem iA := by
    unfold halloc
    simp
  have hmemd : ((halloc st (st.mem iA)).2).mem dA = st.mem dA := by
    unfold halloc
    simp only [if_neg hdne]
  have hmemi : ((halloc st (st.mem iA)).2).mem iA = st.mem iA := by
    unfold halloc
    simp only [if_neg hine]
  refine ⟨fun hcc => hdne hcc.symm, fun hcc => hine hcc.symm, ?_, ?_, ?_⟩
  · show (shiftRowsH dA st.next p _ _ _).mem dA = st.mem dA
    rw [shiftRowsH_frame dA st.next p _ _ _ dA hdne]
    exact hmemd
  · show (shiftRowsH dA st.next p _ _ _).mem iA = st.mem iA
    rw [shiftRowsH_frame dA st.next p _ _ _ iA hine]
    exact hmemi
  · show (shiftRowsH dA st.next p ((halloc st (st.mem iA)).2.mem st.next).width
        (halloc st (st.mem iA)).2
        ((halloc st (st.mem iA)).2.mem st.next).height).mem st.next = _
    rw [hmem1,
      shiftRowsH_spec dA st.next p (st.mem iA).width (st.mem iA).height
        (halloc st (st.mem iA)).2 (st.mem dA) (st.mem iA) hdne hmem1 hmemd]
    rfl

/-- C10 witness: a two-buffer heap holding a 1x1 depth map at address
0 and a 1x1 image at address 1. -/
theorem C10_frame_witness :
    (createDepthShiftedImageH
        ⟨fun a => if a = 0 then ⟨1, 1, fun _ _ => 0⟩
          else ⟨1, 1, fun _ _ => 7⟩, 2⟩ 0 1 1).1 ≠ 0 ∧
    (createDepthShiftedImageH
        ⟨fun a => if a = 0 then ⟨1, 1, fun _ _ => 0⟩
          else ⟨1, 1, fun _ _ => 7⟩, 2⟩ 0 1 1).1 ≠ 1 ∧
    (createDepthShiftedImageH
        ⟨fun a => if a = 0 then ⟨1, 1, fun _ _ => 0⟩
          else ⟨1, 1, fun _ _ => 7⟩, 2⟩ 0 1 1).2.mem 0 =
      (⟨fun a => if a = 0 then ⟨1, 1, fun _ _ => 0⟩
          else ⟨1, 1, fun _ _ => 7⟩, 2⟩ : HeapSt).mem 0 ∧
    (createDepthShiftedImageH
        ⟨fun a => if a = 0 then ⟨1, 1, fun _ _ => 0⟩
          else ⟨1, 1, fun _ _ => 7⟩, 2⟩ 0 1 1).2.mem 1 =
      (⟨fun a => if a = 0 then ⟨1, 1, fun _ _ => 0⟩
          else ⟨1, 1, fun _ _ => 7⟩, 2⟩ : HeapSt).mem 1 ∧
    (createDepthShiftedImageH
        ⟨fun a => if a = 0 then ⟨1, 1, fun _ _ => 0⟩
          else ⟨1, 1, fun _ _ => 7⟩, 2⟩ 0 1 1).2.mem
        (createDepthShiftedImageH
          ⟨fun a => if a = 0 then ⟨1, 1, fun _ _ => 0⟩
            else ⟨1, 1, fun _ _ => 7⟩, 2⟩ 0 1 1).1 =
      createDepthShiftedImage
        ((⟨fun a => if a = 0 then ⟨1, 1, fun _ _ => 0⟩
            else ⟨1, 1, fun _ _ => 7⟩, 2⟩ : HeapSt).mem 0)
        ((⟨fun a => if a = 0 then ⟨1, 1, fun _ _ => 0⟩
            else ⟨1, 1, fun _ _ => 7⟩, 2⟩ : HeapSt).mem 1) 1 :=
  C10_frame
    ⟨fun a => if a = 0 then ⟨1, 1, fun _ _ => 0⟩
      else ⟨1, 1, fun _ _ => 7⟩, 2⟩ 0 1 1 (by decide) (by decide)

end Autos
